import Mathlib

/-! gospider: the URL queue of `spider/queue.go` and the eligibility predicates

A shallow embedding of `urlQueue` (the crawl frontier) and of its three
methods `Seen`, `Next` and `Append`, and a model of the three eligibility
predicates exercised by `spider/urls_test.go`, followed by the properties
established on them.

Conventions of the embedding:

* a Go pointer `*url.URL` is an `Option URL`, `none` being `nil`;
* a method that can end in a run-time panic (dereferencing `nil` in
  `item.String()`) returns an `Option`, `none` being the panic;
* the `sync.RWMutex` makes each method body one critical section; the
  embedding is the sequential meaning of that body.
-/

namespace Spider

/-! ## Data model -/

/-- Modelled from the spec: the parsed URL value of Go's `net/url`, which is
not part of this repository. The spec describes a URL by its scheme, host,
path and query; these are the four fields kept here. -/
structure URL where
  Scheme : String
  Host : String
  Path : String
  RawQuery : String
deriving DecidableEq, Repr

/-- Modelled from the spec: the canonical string of a URL (`(*url.URL).String`
of Go's `net/url`, which is not part of this repository): scheme, host, path
and query written one after the other in the layout `scheme://host/path?query`,
with no normalisation. -/
def URL.String (u : URL) : String :=
  (if u.Scheme ≠ "" then u.Scheme ++ ":" else "") ++
  (if (u.Scheme ≠ "" ∨ u.Host ≠ "") ∧ (u.Host ≠ "" ∨ u.Path ≠ "") then "//" ++ u.Host else "") ++
  (if u.Path ≠ "" ∧ u.Path.front ≠ '/' ∧ u.Host ≠ "" then "/" else "") ++
  u.Path ++
  (if u.RawQuery ≠ "" then "?" ++ u.RawQuery else "")

/-- A Go `map[string]bool`, kept as a list of bindings with at most one
binding for a key. -/
structure StrMap where
  entries : List (String × Bool)
deriving DecidableEq, Repr

/-- The map built by `make(map[string]bool)`. -/
def StrMap.empty : StrMap := ⟨[]⟩

/-- The two-valued index expression `v, ok := m[k]`: the binding of `k`, if any. -/
def StrMap.lookup (m : StrMap) (k : String) : Option Bool :=
  (m.entries.find? (fun e => e.1 == k)).map (fun e => e.2)

/-- The presence flag `ok` of `_, ok := m[k]`. -/
def StrMap.has (m : StrMap) (k : String) : Bool :=
  (m.lookup k).isSome

/-- The assignment `m[k] = v`: the binding of `k` is replaced or created. -/
def StrMap.assign (m : StrMap) (k : String) (v : Bool) : StrMap :=
  ⟨(k, v) :: m.entries.filter (fun e => e.1 != k)⟩

/-- The struct `urlQueue` of `queue.go`: the pending URLs and the map of the
canonical strings seen. The embedded `sync.RWMutex` carries no data. -/
structure urlQueue where
  urls : List (Option URL)
  seen : StrMap
deriving DecidableEq, Repr

/-- `newURLQueue()`: `urls` is the nil slice, `seen` an empty map. -/
def newURLQueue : urlQueue :=
  { urls := [], seen := StrMap.empty }

/-- `(q *urlQueue) Seen(item)`: whether `item.String()` is a key of `q.seen`.
`none` is the panic of `item.String()` on a nil `item`. -/
def urlQueue.Seen (q : urlQueue) (item : Option URL) : Option Bool :=
  match item with
  | none => none
  | some u => some (q.seen.has u.String)

/-- `(q *urlQueue) Next()`: `nil` on an empty `q.urls`, otherwise the last
element of `q.urls`, which is cut off the slice. The result is the returned
pointer together with the queue after the call. -/
def urlQueue.Next (q : urlQueue) : Option URL × urlQueue :=
  if q.urls.length = 0 then
    (none, q)
  else
    (q.urls[q.urls.length - 1]?.join, { q with urls := q.urls.take (q.urls.length - 1) })

/-- `(q *urlQueue) Append(item)`: `item` is appended to `q.urls` and
`item.String()` becomes a key of `q.seen`. `none` is the panic of
`item.String()` on a nil `item`. -/
def urlQueue.Append (q : urlQueue) (item : Option URL) : Option urlQueue :=
  match item with
  | none => none
  | some u => some { urls := q.urls ++ [some u], seen := q.seen.assign u.String true }

/-! ## Histories of calls -/

/-- One call of a method of the queue. -/
inductive Call where
  | Append (item : Option URL)
  | Next
  | Seen (item : Option URL)
deriving DecidableEq, Repr

/-- What a call gives back to its caller. -/
inductive Ret where
  | done
  | next (item : Option URL)
  | seen (b : Bool)
deriving DecidableEq, Repr

/-- One call on a queue: the queue after it and the value returned, or `none`
when the call panics. -/
def urlQueue.call (q : urlQueue) : Call → Option (urlQueue × Ret)
  | Call.Append item => (q.Append item).map (fun q1 => (q1, Ret.done))
  | Call.Next => some ((q.Next).2, Ret.next (q.Next).1)
  | Call.Seen item => (q.Seen item).map (fun b => (q, Ret.seen b))

/-- A finite history of calls, run in order: the final queue and the values
returned, or `none` when one of the calls panics. -/
def urlQueue.run (q : urlQueue) : List Call → Option (urlQueue × List Ret)
  | [] => some (q, [])
  | c :: cs =>
    match q.call c with
    | none => none
    | some (q1, r) =>
      match q1.run cs with
      | none => none
      | some (q2, rs) => some (q2, r :: rs)

/-- Whether the pointer passed by a call, if any, is non-nil. -/
def Call.nonNil : Call → Bool
  | Call.Append item => item.isSome
  | Call.Next => true
  | Call.Seen item => item.isSome

/-- The non-nil URLs passed to `Append` over a history, in order. -/
def appendedURLs (cs : List Call) : List URL :=
  cs.filterMap (fun c => match c with
    | Call.Append item => item
    | _ => none)

/-- The non-nil URLs returned by `Next` over a history, in order. -/
def returnedURLs (rs : List Ret) : List URL :=
  rs.filterMap (fun r => match r with
    | Ret.next item => item
    | _ => none)

/-- The non-nil pending URLs, in order. -/
def urlQueue.pending (q : urlQueue) : List URL :=
  q.urls.reduceOption

/-- The canonical strings passed to `Append` over a history, in order. -/
def appendedStrings (cs : List Call) : List String :=
  (appendedURLs cs).map URL.String

/-- The canonical strings of the non-nil URLs returned by `Next`, in order. -/
def returnedStrings (rs : List Ret) : List String :=
  (returnedURLs rs).map URL.String

/-- The canonical strings of the non-nil pending URLs, in order. -/
def urlQueue.pendingStrings (q : urlQueue) : List String :=
  q.pending.map URL.String

/-- The dedup discipline of the pipeline on a history: every `Append(item)`
is made in a state in which `Seen(item)` is false, and no call panics. -/
def urlQueue.dedup (q : urlQueue) : List Call → Bool
  | [] => true
  | c :: cs =>
    (match c with
      | Call.Append item => q.Seen item == some false
      | _ => true) &&
    (match q.call c with
      | none => false
      | some (q1, _) => q1.dedup cs)

/-- Every pending URL is non-nil and its canonical string is a key of the seen map. -/
def urlQueue.pendingSeen (q : urlQueue) : Prop :=
  ∀ p ∈ q.urls, q.Seen p = some true

/-- Whether a call is a call of `Append`. -/
def Call.isAppend : Call → Bool
  | Call.Append _ => true
  | _ => false

/-- Whether a call is a call of `Seen`. -/
def Call.isSeen : Call → Bool
  | Call.Seen _ => true
  | _ => false

/-- Whether a returned value is a non-nil URL returned by `Next`. -/
def Ret.isURL : Ret → Bool
  | Ret.next (some _) => true
  | _ => false

/-- Whether a returned value is the answer of a call of `Seen`. -/
def Ret.isSeen : Ret → Bool
  | Ret.seen _ => true
  | _ => false

/-! ## The eligibility predicates

The constructors of the three predicates are not in the source files at hand;
`urls_test.go` shows their names, their arguments and the type `urlPredicate`.
Their bodies follow the spec. -/

/-- The function type `urlPredicate` of the package, `func(*url.URL) bool`, as
`urls_test.go` uses it. `none` as a result is a run-time panic. -/
abbrev urlPredicate := Option URL → Option Bool

/-- Modelled from the spec: the interface `Seener`, whose declaration is not in
the source files at hand: the one capability `Seen(*url.URL) bool` that the
frontier exposes. -/
structure Seener where
  Seen : Option URL → Option Bool

/-- The queue as a `Seener` (`var _ Seener = new(urlQueue)` in `queue.go`). -/
def urlQueue.toSeener (q : urlQueue) : Seener :=
  ⟨q.Seen⟩

/-- A `urlPredicate` as a `Seener`, the stand-in of `TestNotSeenPredicate`. -/
def urlPredicate.toSeener (p : urlPredicate) : Seener :=
  ⟨p⟩

/-- Modelled from the spec: `createNotSeenPredicate(seener)`, whose body is not
in the source files at hand: the predicate returns true iff
`seener.Seen(candidate)` is false. -/
def createNotSeenPredicate (seener : Seener) : urlPredicate :=
  fun item => (seener.Seen item).map (fun b => !b)

/-- Modelled from the spec: `host` matches `root` as a suffix at a label
boundary: `host` ends with a dot followed by `root`. -/
def hostIsSubdomain (host root : String) : Bool :=
  ("." ++ root).data.isSuffixOf host.data

/-- Modelled from the spec: `createIsInternalPredicate(root, includeSubdomains)`,
whose body is not in the source files at hand. The candidate arrives resolved
against `root`; the predicate returns true iff its host matches the host of
`root` exactly, or, when `includeSubdomains` is set, exactly or as a suffix at
a label boundary. Nothing but the two hosts is looked at. Reading the host
through a nil pointer is a panic. -/
def createIsInternalPredicate (root : Option URL) (includeSubdomains : Bool) : urlPredicate :=
  fun item =>
    match root, item with
    | some r, some c =>
      some (if includeSubdomains then
        c.Host == r.Host || hostIsSubdomain c.Host r.Host
      else
        c.Host == r.Host)
    | _, _ => none

/-- Modelled from the spec: the parsed rule set of the robots collaborator
(`*robotstxt.RobotsData`, not part of this repository), which exposes one
operation: is `path` allowed for `userAgent`. -/
structure RobotsData where
  TestAgent : (userAgent : String) → (path : String) → Bool

/-- Modelled from the spec: `createShouldRequestByRobotsPredicate(userAgent,
rules)`, whose body is not in the source files at hand: true when `rules` is
absent (nil), otherwise the answer of `rules.TestAgent(userAgent,
candidate.Path)`. Reading the path through a nil pointer is a panic. -/
def createShouldRequestByRobotsPredicate (userAgent : String) (robots : Option RobotsData) :
    urlPredicate :=
  fun item =>
    match robots with
    | none => some true
    | some r =>
      match item with
      | none => none
      | some u => some (r.TestAgent userAgent u.Path)

/-- Modelled from the spec: the path of a reference resolved against a base
path (`resolvePath` of Go's `net/url`, which is not part of this repository):
an empty reference keeps the base, a reference that starts with a slash
replaces it, any other reference replaces what follows the last slash of the
base; the result starts with a slash. Dot segments are left as they are. -/
def resolvePath (base ref : String) : String :=
  let full : List Char :=
    if ref = "" then base.data
    else if ref.front ≠ '/' then (base.data.reverse.dropWhile (fun ch => ch != '/')).reverse ++ ref.data
    else ref.data
  if full = [] then ""
  else if full.head? = some '/' then String.mk full
  else String.mk ('/' :: full)

/-- Modelled from the spec: `root.ResolveReference(ref)` of Go's `net/url`,
which is not part of this repository: a reference with a scheme stands for
itself, a reference with a host takes the scheme of the root, and a reference
with neither (a relative reference) takes the scheme and the host of the root,
its path being resolved against the path of the root. -/
def URL.ResolveReference (u ref : URL) : URL :=
  if ref.Scheme ≠ "" then ref
  else if ref.Host ≠ "" then { ref with Scheme := u.Scheme }
  else
    { Scheme := u.Scheme,
      Host := u.Host,
      Path := resolvePath u.Path ref.Path,
      RawQuery := if ref.Path = "" ∧ ref.RawQuery = "" then u.RawQuery else ref.RawQuery }

/-! ## Example values -/

/-- The URL `http://example.com/a`. -/
def urlA : URL := ⟨"http", "example.com", "/a", ""⟩

/-- The URL `http://example.com/b`. -/
def urlB : URL := ⟨"http", "example.com", "/b", ""⟩

/-- The URL `http://example.com/c`. -/
def urlC : URL := ⟨"http", "example.com", "/c", ""⟩

/-- The URL `http://example.com/a/`, which differs from `urlA` by a trailing slash. -/
def urlASlash : URL := ⟨"http", "example.com", "/a/", ""⟩

/-- The root of `TestIsInternalURLPredicate`: `http://willdemaine.co.uk`. -/
def testRoot : URL := ⟨"http", "willdemaine.co.uk", "", ""⟩

/-- The value of `url.Parse` on a reference that is a path only, such as
`/foo`, `foo` or `notseen.com`. -/
def pathRef (path : String) : URL := ⟨"", "", path, ""⟩

/-- The value of `url.Parse` on `http://host` followed by `path`. -/
def httpURL (host path : String) : URL := ⟨"http", host, path, ""⟩

/-- The stand-in of `TestNotSeenPredicate`: a URL is seen when its canonical
string ends in `foo`. -/
def fooSeener : urlPredicate :=
  fun item => item.map (fun u => "foo".data.isSuffixOf u.String.data)

/-- The rule set of `TestShoudRequestByRobotsPredicate`, as the rule evaluator
answers for it: for the agent `agent` the paths under `/bar/` are disallowed,
every other path and every other agent is allowed. -/
def testRobots : RobotsData :=
  ⟨fun userAgent path =>
    if userAgent = "agent" then !("/bar/".data.isPrefixOf path.data) else true⟩

/-! ## The map of seen strings -/

theorem StrMap.lookup_empty (k : String) : StrMap.empty.lookup k = none := rfl

theorem StrMap.has_empty (k : String) : StrMap.empty.has k = false := rfl

theorem find_filter_ne (l : List (String × Bool)) (k k2 : String) (h : k2 ≠ k) :
    (l.filter (fun e => e.1 != k)).find? (fun e => e.1 == k2) = l.find? (fun e => e.1 == k2) := by
  induction l with
  | nil => rfl
  | cons e l ih =>
    obtain ⟨a, b⟩ := e
    by_cases hk : a = k
    · have hk2 : (a == k2) = false := by
        simp only [beq_eq_false_iff_ne]
        exact fun e2 => h (e2.symm.trans hk)
      have hf : (a != k) = false := by simp [hk]
      rw [List.filter_cons, List.find?_cons]
      simp only [hf, hk2]
      exact ih
    · have hf : (a != k) = true := by simp [hk]
      rw [List.filter_cons, List.find?_cons]
      simp only [hf, if_true]
      rw [List.find?_cons, ih]

theorem StrMap.lookup_assign (m : StrMap) (k : String) (v : Bool) (k2 : String) :
    (m.assign k v).lookup k2 = if k2 = k then some v else m.lookup k2 := by
  unfold StrMap.lookup StrMap.assign
  by_cases h : k2 = k
  · subst h
    simp
  · have hne : (k == k2) = false := by
      simp only [beq_eq_false_iff_ne]
      exact fun e => h e.symm
    rw [if_neg h, List.find?_cons]
    simp only [hne]
    rw [find_filter_ne _ _ _ h]

theorem StrMap.has_assign (m : StrMap) (k : String) (v : Bool) (k2 : String) :
    (m.assign k v).has k2 = true ↔ (m.has k2 = true ∨ k2 = k) := by
  unfold StrMap.has
  rw [StrMap.lookup_assign]
  by_cases h : k2 = k
  · simp [h]
  · simp [h]

/-! ## Single calls -/

theorem urlQueue.Next_nil (q : urlQueue) (h : q.urls = []) : q.Next = (none, q) := by
  unfold urlQueue.Next
  simp [h]

theorem urlQueue.Next_snoc (q : urlQueue) (xs : List (Option URL)) (p : Option URL)
    (h : q.urls = xs ++ [p]) : q.Next = (p, { q with urls := xs }) := by
  unfold urlQueue.Next
  simp [h]

theorem urlQueue.run_append (q : urlQueue) (cs1 cs2 : List Call) :
    q.run (cs1 ++ cs2) =
      match q.run cs1 with
      | none => none
      | some (q1, rs1) =>
        match q1.run cs2 with
        | none => none
        | some (q2, rs2) => some (q2, rs1 ++ rs2) := by
  induction cs1 generalizing q with
  | nil =>
    simp only [List.nil_append, urlQueue.run]
    cases q.run cs2 with
    | none => rfl
    | some x => rfl
  | cons c cs ih =>
    rw [List.cons_append]
    simp only [urlQueue.run]
    cases hc : q.call c with
    | none => rfl
    | some x =>
      obtain ⟨q1, r⟩ := x
      simp only [ih]
      cases h1 : q1.run cs with
      | none => rfl
      | some y =>
        obtain ⟨q2, rs⟩ := y
        simp only
        cases h2 : q2.run cs2 with
        | none => rfl
        | some z => rfl

theorem urlQueue.run_cons_some (q q2 : urlQueue) (c : Call) (cs : List Call) (rs : List Ret)
    (h : q.run (c :: cs) = some (q2, rs)) :
    ∃ q1 r rs1, q.call c = some (q1, r) ∧ q1.run cs = some (q2, rs1) ∧ rs = r :: rs1 := by
  simp only [urlQueue.run] at h
  cases hc : q.call c with
  | none => simp [hc] at h
  | some x =>
    obtain ⟨q1, r⟩ := x
    simp only [hc] at h
    cases h1 : q1.run cs with
    | none => simp [h1] at h
    | some y =>
      obtain ⟨q3, rs3⟩ := y
      simp only [h1, Option.some.injEq, Prod.mk.injEq] at h
      obtain ⟨rfl, rfl⟩ := h
      exact ⟨q1, r, rs3, rfl, h1, rfl⟩

theorem urlQueue.Next_cases (q : urlQueue) :
    (q.urls = [] ∧ q.Next = (none, q)) ∨
      ∃ xs p, q.urls = xs ++ [p] ∧ q.Next = (p, { q with urls := xs }) := by
  rcases List.eq_nil_or_concat q.urls with h | ⟨xs, p, h⟩
  · exact Or.inl ⟨h, q.Next_nil h⟩
  · rw [List.concat_eq_append] at h
    exact Or.inr ⟨xs, p, h, q.Next_snoc xs p h⟩

theorem urlQueue.Next_seen (q : urlQueue) : q.Next.2.seen = q.seen := by
  rcases q.Next_cases with ⟨_, h⟩ | ⟨xs, p, _, h⟩ <;> rw [h]

theorem urlQueue.Next_urls_subset (q : urlQueue) (p : Option URL) (h : p ∈ q.Next.2.urls) :
    p ∈ q.urls := by
  rcases q.Next_cases with ⟨_, hn⟩ | ⟨xs, r, hu, hn⟩
  · rw [hn] at h
    exact h
  · rw [hn] at h
    rw [hu]
    exact List.mem_append_left _ h

/-- The keys of the seen map after one call: the keys before, and the
canonical string of the URL appended, if the call is an `Append`. -/
theorem urlQueue.call_seen_iff (q q1 : urlQueue) (c : Call) (r : Ret)
    (h : q.call c = some (q1, r)) (k : String) :
    q1.seen.has k = true ↔ (q.seen.has k = true ∨ k ∈ appendedStrings [c]) := by
  cases c with
  | Append item =>
    cases item with
    | none => simp [urlQueue.call, urlQueue.Append] at h
    | some u =>
      simp only [urlQueue.call, urlQueue.Append, Option.map, Option.some.injEq,
        Prod.mk.injEq] at h
      rw [← h.1]
      simp [appendedStrings, appendedURLs, StrMap.has_assign]
  | Next =>
    simp only [urlQueue.call, Option.some.injEq, Prod.mk.injEq] at h
    rw [← h.1, q.Next_seen]
    simp [appendedStrings, appendedURLs]
  | Seen item =>
    cases item with
    | none => simp [urlQueue.call, urlQueue.Seen] at h
    | some u =>
      simp only [urlQueue.call, urlQueue.Seen, Option.map, Option.some.injEq,
        Prod.mk.injEq] at h
      rw [← h.1]
      simp [appendedStrings, appendedURLs]

theorem appendedStrings_cons (c : Call) (cs : List Call) :
    appendedStrings (c :: cs) = appendedStrings [c] ++ appendedStrings cs := by
  unfold appendedStrings appendedURLs
  rw [← List.map_append, ← List.filterMap_append]
  rfl

/-- The keys of the seen map after a history: the keys before, and the
canonical strings appended over the history. -/
theorem urlQueue.run_seen_iff (q q2 : urlQueue) (cs : List Call) (rs : List Ret)
    (h : q.run cs = some (q2, rs)) (k : String) :
    q2.seen.has k = true ↔ (q.seen.has k = true ∨ k ∈ appendedStrings cs) := by
  induction cs generalizing q rs with
  | nil =>
    simp only [urlQueue.run, Option.some.injEq, Prod.mk.injEq] at h
    rw [← h.1]
    simp [appendedStrings, appendedURLs]
  | cons c cs ih =>
    obtain ⟨q1, r, rs1, hc, h1, _⟩ := q.run_cons_some q2 c cs rs h
    rw [appendedStrings_cons c cs, ih q1 rs1 h1, q.call_seen_iff q1 c r hc,
      List.mem_append, or_assoc]

theorem mem_appendedStrings (cs : List Call) (k : String) :
    k ∈ appendedStrings cs ↔ ∃ v, Call.Append (some v) ∈ cs ∧ v.String = k := by
  unfold appendedStrings appendedURLs
  simp only [List.mem_map, List.mem_filterMap]
  constructor
  · rintro ⟨v, ⟨c, hc, hv⟩, hk⟩
    cases c with
    | Append item =>
      simp only at hv
      subst hv
      exact ⟨v, hc, hk⟩
    | Next => simp at hv
    | Seen item => simp at hv
  · rintro ⟨v, hc, hk⟩
    exact ⟨v, ⟨Call.Append (some v), hc, rfl⟩, hk⟩

/-- A history none of whose calls passes a nil pointer runs without a panic. -/
theorem urlQueue.run_isSome (q : urlQueue) (cs : List Call)
    (h : ∀ c ∈ cs, c.nonNil = true) : ∃ q2 rs, q.run cs = some (q2, rs) := by
  induction cs generalizing q with
  | nil => exact ⟨q, [], rfl⟩
  | cons c cs ih =>
    have hc : ∃ q1 r, q.call c = some (q1, r) := by
      have hn := h c (List.mem_cons_self _ _)
      cases c with
      | Append item =>
        cases item with
        | none => simp [Call.nonNil] at hn
        | some u => exact ⟨_, _, rfl⟩
      | Next => exact ⟨_, _, rfl⟩
      | Seen item =>
        cases item with
        | none => simp [Call.nonNil] at hn
        | some u => exact ⟨_, _, rfl⟩
    obtain ⟨q1, r, hc⟩ := hc
    obtain ⟨q2, rs, h2⟩ := ih q1 (fun d hd => h d (List.mem_cons_of_mem _ hd))
    exact ⟨q2, r :: rs, by simp only [urlQueue.run, hc, h2]⟩

theorem urlQueue.call_pendingSeen (q q1 : urlQueue) (c : Call) (r : Ret)
    (h : q.call c = some (q1, r)) (hq : q.pendingSeen) : q1.pendingSeen := by
  cases c with
  | Append item =>
    cases item with
    | none => simp [urlQueue.call, urlQueue.Append] at h
    | some u =>
      simp only [urlQueue.call, urlQueue.Append, Option.map, Option.some.injEq,
        Prod.mk.injEq] at h
      rw [← h.1]
      intro p hp
      simp only [List.mem_append, List.mem_singleton] at hp
      rcases hp with hp | hp
      · have h3 := hq p hp
        cases p with
        | none => simp [urlQueue.Seen] at h3
        | some v =>
          simp only [urlQueue.Seen, Option.some.injEq] at h3
          simp only [urlQueue.Seen, Option.some.injEq]
          exact (StrMap.has_assign _ _ _ _).2 (Or.inl h3)
      · subst hp
        simp only [urlQueue.Seen, Option.some.injEq]
        exact (StrMap.has_assign _ _ _ _).2 (Or.inr rfl)
  | Next =>
    simp only [urlQueue.call, Option.some.injEq, Prod.mk.injEq] at h
    rw [← h.1]
    intro p hp
    have h3 := hq p (q.Next_urls_subset p hp)
    cases p with
    | none => simp [urlQueue.Seen] at h3
    | some v =>
      simp only [urlQueue.Seen, q.Next_seen]
      exact h3
  | Seen item =>
    cases item with
    | none => simp [urlQueue.call, urlQueue.Seen] at h
    | some u =>
      simp only [urlQueue.call, urlQueue.Seen, Option.map, Option.some.injEq,
        Prod.mk.injEq] at h
      rw [← h.1]
      exact hq

theorem urlQueue.run_pendingSeen (q q2 : urlQueue) (cs : List Call) (rs : List Ret)
    (h : q.run cs = some (q2, rs)) (hq : q.pendingSeen) : q2.pendingSeen := by
  induction cs generalizing q rs with
  | nil =>
    simp only [urlQueue.run, Option.some.injEq, Prod.mk.injEq] at h
    rw [← h.1]
    exact hq
  | cons c cs ih =>
    obtain ⟨q1, r, rs1, hc, h1, _⟩ := q.run_cons_some q2 c cs rs h
    exact ih q1 rs1 h1 (q.call_pendingSeen q1 c r hc hq)

theorem urlQueue.run_appends (q : urlQueue) (us : List URL) :
    ∃ q1, q.run (us.map (fun u => Call.Append (some u))) =
        some (q1, List.replicate us.length Ret.done) ∧
      q1.urls = q.urls ++ us.map some := by
  induction us generalizing q with
  | nil => exact ⟨q, rfl, by simp⟩
  | cons u us ih =>
    obtain ⟨q1, h1, h2⟩ :=
      ih { urls := q.urls ++ [some u], seen := q.seen.assign u.String true }
    refine ⟨q1, ?_, ?_⟩
    · simp only [List.map_cons, urlQueue.run, urlQueue.call, urlQueue.Append, Option.map,
        h1, List.length_cons, List.replicate_succ]
    · simp [h2]

theorem urlQueue.run_nexts (q : urlQueue) (xs ps : List (Option URL))
    (h : q.urls = xs ++ ps.reverse) :
    q.run (List.replicate ps.length Call.Next) =
      some ({ q with urls := xs }, ps.map Ret.next) := by
  induction ps generalizing q with
  | nil =>
    simp only [List.reverse_nil, List.append_nil] at h
    simp only [List.length_nil, List.replicate_zero, urlQueue.run, List.map_nil]
    rw [← h]
  | cons p ps ih =>
    have hq : q.urls = (xs ++ ps.reverse) ++ [p] := by
      rw [h, List.reverse_cons, List.append_assoc]
    have hn := q.Next_snoc _ _ hq
    have h2 := ih { q with urls := xs ++ ps.reverse } rfl
    simp only [List.length_cons, List.replicate_succ, urlQueue.run, urlQueue.call, hn, h2,
      List.map_cons]

/-! ## Conservation of the URLs over a history -/

theorem appendedURLs_cons (c : Call) (cs : List Call) :
    appendedURLs (c :: cs) = appendedURLs [c] ++ appendedURLs cs := by
  unfold appendedURLs
  rw [← List.filterMap_append]
  rfl

theorem returnedURLs_cons (r : Ret) (rs : List Ret) :
    returnedURLs (r :: rs) = returnedURLs [r] ++ returnedURLs rs := by
  unfold returnedURLs
  rw [← List.filterMap_append]
  rfl

/-- One call keeps the URLs: those returned and those pending after it are
those pending before it and those appended by it. -/
theorem urlQueue.call_conservation (q q1 : urlQueue) (c : Call) (r : Ret)
    (h : q.call c = some (q1, r)) :
    (returnedURLs [r] ++ q1.pending).Perm (q.pending ++ appendedURLs [c]) := by
  cases c with
  | Append item =>
    cases item with
    | none => simp [urlQueue.call, urlQueue.Append] at h
    | some u =>
      simp only [urlQueue.call, urlQueue.Append, Option.map, Option.some.injEq,
        Prod.mk.injEq] at h
      obtain ⟨rfl, rfl⟩ := h
      simp [returnedURLs, appendedURLs, urlQueue.pending, List.reduceOption_append]
  | Next =>
    simp only [urlQueue.call, Option.some.injEq, Prod.mk.injEq] at h
    obtain ⟨rfl, rfl⟩ := h
    rcases q.Next_cases with ⟨_, hn⟩ | ⟨xs, p, hu, hn⟩
    · rw [hn]
      simp [returnedURLs, appendedURLs]
    · rw [hn]
      cases p with
      | none =>
        simp [returnedURLs, appendedURLs, urlQueue.pending, hu, List.reduceOption_append]
      | some u =>
        simp only [returnedURLs, appendedURLs, urlQueue.pending, hu,
          List.reduceOption_append, List.filterMap_cons, List.filterMap_nil,
          List.append_nil]
        exact List.perm_append_comm
  | Seen item =>
    cases item with
    | none => simp [urlQueue.call, urlQueue.Seen] at h
    | some u =>
      simp only [urlQueue.call, urlQueue.Seen, Option.map, Option.some.injEq,
        Prod.mk.injEq] at h
      obtain ⟨rfl, rfl⟩ := h
      simp [returnedURLs, appendedURLs]

/-- A history keeps the URLs: those returned over it and those pending at its
end are those pending at its start and those appended over it. -/
theorem urlQueue.run_conservation (q q2 : urlQueue) (cs : List Call) (rs : List Ret)
    (h : q.run cs = some (q2, rs)) :
    (returnedURLs rs ++ q2.pending).Perm (q.pending ++ appendedURLs cs) := by
  induction cs generalizing q rs with
  | nil =>
    simp only [urlQueue.run, Option.some.injEq, Prod.mk.injEq] at h
    obtain ⟨rfl, rfl⟩ := h
    simp [returnedURLs, appendedURLs]
  | cons c cs ih =>
    obtain ⟨q1, r, rs1, hc, h1, rfl⟩ := q.run_cons_some q2 c cs rs h
    rw [returnedURLs_cons r rs1, appendedURLs_cons c cs, List.append_assoc,
      ← List.append_assoc q.pending]
    exact ((ih q1 rs1 h1).append_left (returnedURLs [r])).trans
      (by
        rw [← List.append_assoc]
        exact (q.call_conservation q1 c r hc).append_right (appendedURLs cs))

/-! ## The dedup discipline -/

theorem urlQueue.dedup_cons (q : urlQueue) (c : Call) (cs : List Call)
    (h : q.dedup (c :: cs) = true) :
    ∃ q1 r, q.call c = some (q1, r) ∧ q1.dedup cs = true ∧
      ∀ k ∈ appendedStrings [c], q.seen.has k = false := by
  simp only [urlQueue.dedup, Bool.and_eq_true] at h
  obtain ⟨hg, hrest⟩ := h
  cases hc : q.call c with
  | none => simp [hc] at hrest
  | some x =>
    obtain ⟨q1, r⟩ := x
    simp only [hc] at hrest
    refine ⟨q1, r, rfl, hrest, ?_⟩
    intro k hk
    cases c with
    | Append item =>
      cases item with
      | none => simp [appendedStrings, appendedURLs] at hk
      | some u =>
        simp only [appendedStrings, appendedURLs, List.filterMap_cons, List.filterMap_nil,
          List.map_cons, List.map_nil, List.mem_singleton] at hk
        simp only [urlQueue.Seen, beq_iff_eq, Option.some.injEq] at hg
        rw [hk]
        exact hg
    | Next => simp [appendedStrings, appendedURLs] at hk
    | Seen item => simp [appendedStrings, appendedURLs] at hk

/-- A history under the dedup discipline runs without a panic. -/
theorem urlQueue.dedup_run (q : urlQueue) (cs : List Call) (h : q.dedup cs = true) :
    ∃ q2 rs, q.run cs = some (q2, rs) := by
  induction cs generalizing q with
  | nil => exact ⟨q, [], rfl⟩
  | cons c cs ih =>
    obtain ⟨q1, r, hc, hd, _⟩ := q.dedup_cons c cs h
    obtain ⟨q2, rs, h2⟩ := ih q1 hd
    exact ⟨q2, r :: rs, by simp only [urlQueue.run, hc, h2]⟩

/-- The beginning of a history under the dedup discipline is under it too. -/
theorem urlQueue.dedup_append_left (q : urlQueue) (cs1 cs2 : List Call)
    (h : q.dedup (cs1 ++ cs2) = true) : q.dedup cs1 = true := by
  induction cs1 generalizing q with
  | nil => rfl
  | cons c cs ih =>
    rw [List.cons_append] at h
    obtain ⟨q1, r, hc, hd, _⟩ := q.dedup_cons c (cs ++ cs2) h
    simp only [urlQueue.dedup, Bool.and_eq_true] at h
    simp only [urlQueue.dedup, Bool.and_eq_true, hc]
    exact ⟨h.1, ih q1 hd⟩

theorem appendedStrings_singleton_nodup (c : Call) : (appendedStrings [c]).Nodup := by
  cases c with
  | Append item =>
    cases item with
    | none => simp [appendedStrings, appendedURLs]
    | some u => simp [appendedStrings, appendedURLs]
  | Next => simp [appendedStrings, appendedURLs]
  | Seen item => simp [appendedStrings, appendedURLs]

/-- Under the dedup discipline no canonical string is appended twice, and none
that is appended was a key of the seen map at the start. -/
theorem urlQueue.dedup_nodup (q : urlQueue) (cs : List Call) (h : q.dedup cs = true) :
    (appendedStrings cs).Nodup ∧ ∀ k ∈ appendedStrings cs, q.seen.has k = false := by
  induction cs generalizing q with
  | nil => simp [appendedStrings, appendedURLs]
  | cons c cs ih =>
    obtain ⟨q1, r, hc, hd, hg⟩ := q.dedup_cons c cs h
    obtain ⟨hnd, hfresh⟩ := ih q1 hd
    have hstep : ∀ k ∈ appendedStrings cs,
        q.seen.has k = false ∧ k ∉ appendedStrings [c] := by
      intro k hk
      have h1 := hfresh k hk
      have h2 := q.call_seen_iff q1 c r hc k
      rw [h1] at h2
      constructor
      · cases hq : q.seen.has k with
        | false => rfl
        | true => exact absurd (h2.2 (Or.inl hq)) (by simp)
      · intro hmem
        exact absurd (h2.2 (Or.inr hmem)) (by simp)
    rw [appendedStrings_cons c cs]
    constructor
    · refine List.Nodup.append (appendedStrings_singleton_nodup c) hnd ?_
      rw [List.disjoint_left]
      intro k hk1 hk2
      exact (hstep k hk2).2 hk1
    · intro k hk
      rcases List.mem_append.1 hk with hk | hk
      · exact hg k hk
      · exact (hstep k hk).1

/-- The run of the spec's example: `a`, `b`, `c` appended to a new queue come
back as `c`, `b`, `a`, and a fourth `Next` returns nil. -/
theorem urlQueue.run_abc :
    newURLQueue.run [Call.Append (some urlA), Call.Append (some urlB), Call.Append (some urlC),
        Call.Next, Call.Next, Call.Next, Call.Next] =
      some (⟨[], ⟨[("http://example.com/c", true), ("http://example.com/b", true),
          ("http://example.com/a", true)]⟩⟩,
        [Ret.done, Ret.done, Ret.done, Ret.next (some urlC), Ret.next (some urlB),
          Ret.next (some urlA), Ret.next none]) := by
  decide

/-! ## Properties of the frontier -/

/-- C1 (LIFO order): on any queue `q`, appending the non-nil URLs `u1..un` in
that order and then calling `Next` `n` times runs without a panic, the `n`
calls of `Next` return `un, ..., u1` in that order, and the pending sequence
at the end is the pending sequence of `q`. -/
theorem lifo_order (q : urlQueue) (us : List URL) :
    ∃ q2, q.run (us.map (fun u => Call.Append (some u)) ++
          List.replicate us.length Call.Next) =
        some (q2, List.replicate us.length Ret.done ++
          us.reverse.map (fun u => Ret.next (some u))) ∧
      q2.urls = q.urls := by
  obtain ⟨q1, h1, h2⟩ := q.run_appends us
  have h3 := q1.run_nexts q.urls (us.map some).reverse (by rw [h2, List.reverse_reverse])
  rw [List.length_reverse, List.length_map] at h3
  refine ⟨{ q1 with urls := q.urls }, ?_, rfl⟩
  rw [urlQueue.run_append, h1]
  simp only [h3, List.map_reverse, List.map_map]
  rfl

/-- C4 (empty frontier): on a queue whose pending sequence is empty, `Next`
returns nil and leaves the queue, pending sequence and seen map, as it was. -/
theorem next_empty (q : urlQueue) (h : q.urls = []) :
    q.Next.1 = none ∧ q.Next.2 = q ∧ q.Next.2.urls = q.urls ∧ q.Next.2.seen = q.seen := by
  rw [q.Next_nil h]
  exact ⟨rfl, rfl, rfl, rfl⟩

theorem next_empty_witness :
    (newURLQueue.Next.1 = none ∧ newURLQueue.Next.2 = newURLQueue ∧
      newURLQueue.Next.2.urls = newURLQueue.urls ∧
      newURLQueue.Next.2.seen = newURLQueue.seen) :=
  next_empty newURLQueue rfl

/-- C5 (postcondition of `Next`): on a queue whose pending sequence is
`xs ++ [p]`, `Next` returns `p`, the pending sequence becomes `xs`, one
shorter, and the seen map is unchanged, so that `Seen` answers as before. -/
theorem next_nonempty (q : urlQueue) (xs : List (Option URL)) (p : Option URL)
    (h : q.urls = xs ++ [p]) :
    q.Next.1 = p ∧ q.Next.2.urls = xs ∧ q.Next.2.urls.length + 1 = q.urls.length ∧
      q.Next.2.seen = q.seen ∧ ∀ v, q.Next.2.Seen v = q.Seen v := by
  rw [q.Next_snoc xs p h]
  refine ⟨rfl, rfl, ?_, rfl, fun v => rfl⟩
  simp [h]

theorem next_nonempty_witness :
    (urlQueue.mk [some urlA, some urlB] ⟨[("k", true)]⟩).Next.1 = some urlB ∧
      (urlQueue.mk [some urlA, some urlB] ⟨[("k", true)]⟩).Next.2.urls = [some urlA] ∧
      (urlQueue.mk [some urlA, some urlB] ⟨[("k", true)]⟩).Next.2.urls.length + 1 =
        (urlQueue.mk [some urlA, some urlB] ⟨[("k", true)]⟩).urls.length ∧
      (urlQueue.mk [some urlA, some urlB] ⟨[("k", true)]⟩).Next.2.seen =
        (urlQueue.mk [some urlA, some urlB] ⟨[("k", true)]⟩).seen ∧
      ∀ v, (urlQueue.mk [some urlA, some urlB] ⟨[("k", true)]⟩).Next.2.Seen v =
        (urlQueue.mk [some urlA, some urlB] ⟨[("k", true)]⟩).Seen v :=
  next_nonempty (urlQueue.mk [some urlA, some urlB] ⟨[("k", true)]⟩) [some urlA] (some urlB) rfl

/-- C6 (postcondition of `Append`): for a non-nil URL `u`, `Append(u)` does not
panic and gives one state in which the pending sequence is the old one with
`u` added at the end and the keys of the seen map are the old keys together
with `u.String()`, which is bound to `true`, every other binding kept. -/
theorem append_post (q : urlQueue) (u : URL) :
    ∃ q1, q.Append (some u) = some q1 ∧
      q1.urls = q.urls ++ [some u] ∧
      (∀ k, q1.seen.has k = true ↔ (q.seen.has k = true ∨ k = u.String)) ∧
      (∀ k, q1.seen.lookup k = if k = u.String then some true else q.seen.lookup k) :=
  ⟨{ urls := q.urls ++ [some u], seen := q.seen.assign u.String true }, rfl, rfl,
    fun k => StrMap.has_assign q.seen u.String true k,
    fun k => StrMap.lookup_assign q.seen u.String true k⟩

/-- C2 (frontier monotonicity): over any history of calls that takes `q` to
`q2`, a URL seen in `q` is seen in `q2`; when `q` is the state right after an
`Append(u)`, `Seen(u)` is true in `q` and still true in `q2`; and `Append(u)`
on `q` itself gives a state in which `Seen(u)` is true. -/
theorem seen_monotone (q q2 : urlQueue) (cs : List Call) (rs : List Ret) (u : URL)
    (hrun : q.run cs = some (q2, rs)) :
    (q.Seen (some u) = some true → q2.Seen (some u) = some true) ∧
      (∀ q0 : urlQueue, q0.Append (some u) = some q →
        q.Seen (some u) = some true ∧ q2.Seen (some u) = some true) ∧
      (∃ q1, q.Append (some u) = some q1 ∧ q1.Seen (some u) = some true) := by
  have hmono : q.Seen (some u) = some true → q2.Seen (some u) = some true := by
    intro h
    simp only [urlQueue.Seen, Option.some.injEq] at h
    simp only [urlQueue.Seen, Option.some.injEq]
    exact (q.run_seen_iff q2 cs rs hrun u.String).2 (Or.inl h)
  refine ⟨hmono, ?_, ?_⟩
  · intro q0 h0
    have hq : q.Seen (some u) = some true := by
      simp only [urlQueue.Append, Option.some.injEq] at h0
      rw [← h0]
      simp only [urlQueue.Seen, Option.some.injEq]
      exact (StrMap.has_assign _ _ _ _).2 (Or.inr rfl)
    exact ⟨hq, hmono hq⟩
  · refine ⟨_, rfl, ?_⟩
    simp only [urlQueue.Seen, Option.some.injEq]
    exact (StrMap.has_assign _ _ _ _).2 (Or.inr rfl)

theorem seen_monotone_witness :
    newURLQueue.Append (some urlA) = some ⟨[some urlA], ⟨[("http://example.com/a", true)]⟩⟩ ∧
      (urlQueue.mk [some urlA] ⟨[("http://example.com/a", true)]⟩).run
          [Call.Next, Call.Append (some urlB), Call.Next, Call.Next] =
        some (⟨[], ⟨[("http://example.com/b", true), ("http://example.com/a", true)]⟩⟩,
          [Ret.next (some urlA), Ret.done, Ret.next (some urlB), Ret.next none]) ∧
      (urlQueue.mk [] ⟨[("http://example.com/b", true), ("http://example.com/a", true)]⟩).Seen
          (some urlA) = some true :=
  ⟨by decide, by decide,
    ((seen_monotone ⟨[some urlA], ⟨[("http://example.com/a", true)]⟩⟩
      ⟨[], ⟨[("http://example.com/b", true), ("http://example.com/a", true)]⟩⟩
      [Call.Next, Call.Append (some urlB), Call.Next, Call.Next]
      [Ret.next (some urlA), Ret.done, Ret.next (some urlB), Ret.next none]
      urlA (by decide)).2.1 newURLQueue (by decide)).2⟩

/-- C3 (pending is a subset of seen): in every state reached from
`newURLQueue()` by a history of `Append`, `Next` and `Seen` calls, every entry
of the pending sequence is a non-nil URL for which `Seen` is true, its
canonical string being a key of the seen map. -/
theorem pending_subset_seen (cs : List Call) (q : urlQueue) (rs : List Ret)
    (hrun : newURLQueue.run cs = some (q, rs)) :
    ∀ p ∈ q.urls, q.Seen p = some true ∧
      ∃ u, p = some u ∧ q.seen.has u.String = true := by
  have hinv : q.pendingSeen :=
    newURLQueue.run_pendingSeen q cs rs hrun (fun p hp => by simp [newURLQueue] at hp)
  intro p hp
  have h := hinv p hp
  refine ⟨h, ?_⟩
  cases p with
  | none => simp [urlQueue.Seen] at h
  | some u =>
    simp only [urlQueue.Seen, Option.some.injEq] at h
    exact ⟨u, rfl, h⟩

theorem pending_subset_seen_witness :
    newURLQueue.run [Call.Append (some urlA), Call.Append (some urlB), Call.Seen (some urlC),
        Call.Append (some urlC), Call.Next] =
      some (⟨[some urlA, some urlB], ⟨[("http://example.com/c", true),
          ("http://example.com/b", true), ("http://example.com/a", true)]⟩⟩,
        [Ret.done, Ret.done, Ret.seen false, Ret.done, Ret.next (some urlC)]) ∧
      ∀ p ∈ [some urlA, some urlB],
        (urlQueue.mk [some urlA, some urlB] ⟨[("http://example.com/c", true),
          ("http://example.com/b", true), ("http://example.com/a", true)]⟩).Seen p = some true ∧
        ∃ u, p = some u ∧ (StrMap.mk [("http://example.com/c", true),
          ("http://example.com/b", true), ("http://example.com/a", true)]).has u.String = true :=
  ⟨by decide,
    pending_subset_seen [Call.Append (some urlA), Call.Append (some urlB), Call.Seen (some urlC),
        Call.Append (some urlC), Call.Next]
      ⟨[some urlA, some urlB], ⟨[("http://example.com/c", true),
          ("http://example.com/b", true), ("http://example.com/a", true)]⟩⟩
      [Ret.done, Ret.done, Ret.seen false, Ret.done, Ret.next (some urlC)] (by decide)⟩

/-- C7 (`Seen` is membership by canonical string): in a state reached from
`newURLQueue()` by a history `cs`, `Seen(u)` is true exactly when the history
holds an `Append(v)` with `v.String() = u.String()`; a URL with the same
canonical string as `u` gets the same answer as `u`; and `Seen(u)` is false
when every URL appended has a canonical string other than that of `u`. -/
theorem seen_iff_appended (cs : List Call) (q : urlQueue) (rs : List Ret) (u : URL)
    (hrun : newURLQueue.run cs = some (q, rs)) :
    (q.Seen (some u) = some true ↔
        ∃ v, Call.Append (some v) ∈ cs ∧ v.String = u.String) ∧
      (∀ w : URL, w.String = u.String → q.Seen (some w) = q.Seen (some u)) ∧
      ((∀ v, Call.Append (some v) ∈ cs → v.String ≠ u.String) →
        q.Seen (some u) = some false) := by
  have hiff : q.Seen (some u) = some true ↔
      ∃ v, Call.Append (some v) ∈ cs ∧ v.String = u.String := by
    simp only [urlQueue.Seen, Option.some.injEq]
    rw [newURLQueue.run_seen_iff q cs rs hrun u.String, mem_appendedStrings]
    simp [newURLQueue, StrMap.has_empty]
  refine ⟨hiff, ?_, ?_⟩
  · intro w hw
    simp only [urlQueue.Seen, hw]
  · intro hne
    have hnot : ¬ q.Seen (some u) = some true := by
      rw [hiff]
      rintro ⟨v, hv, hs⟩
      exact hne v hv hs
    simp only [urlQueue.Seen, Option.some.injEq] at hnot
    simp only [urlQueue.Seen, Option.some.injEq]
    exact Bool.eq_false_iff.2 hnot

theorem seen_iff_appended_witness :
    newURLQueue.run [Call.Append (some urlA)] =
        some (⟨[some urlA], ⟨[("http://example.com/a", true)]⟩⟩, [Ret.done]) ∧
      urlA.String = "http://example.com/a" ∧ urlASlash.String = "http://example.com/a/" ∧
      (urlQueue.mk [some urlA] ⟨[("http://example.com/a", true)]⟩).Seen (some urlA) =
        some true ∧
      (urlQueue.mk [some urlA] ⟨[("http://example.com/a", true)]⟩).Seen (some urlASlash) =
        some false :=
  ⟨by decide, by decide, by decide, by decide,
    (seen_iff_appended [Call.Append (some urlA)]
      ⟨[some urlA], ⟨[("http://example.com/a", true)]⟩⟩ [Ret.done] urlASlash (by decide)).2.2
      (fun v hv => by
        simp only [List.mem_singleton, Call.Append.injEq, Option.some.injEq] at hv
        rw [hv]
        decide)⟩

/-- C8 (`Append` performs no policy check): when `Seen(u)` is already true,
`Append(u)` still puts `u` at the end of the pending sequence, which grows by
one; and on any queue the history `Append(u); Append(u); Next; Next` returns
`u` twice and leaves the pending sequence as it was at the start. -/
theorem append_no_policy (q : urlQueue) (u : URL) :
    (q.Seen (some u) = some true →
        ∃ q1, q.Append (some u) = some q1 ∧ q1.urls = q.urls ++ [some u] ∧
          q1.urls.length = q.urls.length + 1) ∧
      (∃ q2, q.run [Call.Append (some u), Call.Append (some u), Call.Next, Call.Next] =
          some (q2, [Ret.done, Ret.done, Ret.next (some u), Ret.next (some u)]) ∧
        q2.urls = q.urls) := by
  constructor
  · intro _
    exact ⟨_, rfl, rfl, by simp⟩
  · refine ⟨urlQueue.mk q.urls ((q.seen.assign u.String true).assign u.String true), ?_, rfl⟩
    have h1 := urlQueue.Next_snoc
      (urlQueue.mk (q.urls ++ [some u] ++ [some u])
        ((q.seen.assign u.String true).assign u.String true))
      (q.urls ++ [some u]) (some u) rfl
    have h2 := urlQueue.Next_snoc
      (urlQueue.mk (q.urls ++ [some u])
        ((q.seen.assign u.String true).assign u.String true))
      q.urls (some u) rfl
    simp only [urlQueue.run, urlQueue.call, urlQueue.Append, Option.map, h1, h2]

theorem append_no_policy_witness :
    (urlQueue.mk [] ⟨[("http://example.com/a", true)]⟩).Seen (some urlA) = some true ∧
      ∃ q1, (urlQueue.mk [] ⟨[("http://example.com/a", true)]⟩).Append (some urlA) = some q1 ∧
        q1.urls = (urlQueue.mk [] ⟨[("http://example.com/a", true)]⟩).urls ++ [some urlA] ∧
        q1.urls.length = (urlQueue.mk [] ⟨[("http://example.com/a", true)]⟩).urls.length + 1 :=
  ⟨by decide, (append_no_policy ⟨[], ⟨[("http://example.com/a", true)]⟩⟩ urlA).1 (by decide)⟩

/-- C9 (a URL once seen is never re-enqueued): take a history from
`newURLQueue()` in which every `Append(u)` is made when `Seen(u)` is false.
At every point of it (after any beginning `cs1` of the history) the calls so
far have run without a panic, no canonical string has been appended twice, the
pending sequence holds no nil and no two URLs with the same canonical string,
and no canonical string has been returned twice by `Next`, nor is one that was
returned pending again. -/
theorem never_reenqueued (cs1 cs2 : List Call)
    (hd : newURLQueue.dedup (cs1 ++ cs2) = true) :
    ∃ q rs, newURLQueue.run cs1 = some (q, rs) ∧
      (appendedStrings cs1).Nodup ∧
      (∀ p ∈ q.urls, p ≠ none) ∧
      q.pendingStrings.Nodup ∧
      (returnedStrings rs).Nodup ∧
      (returnedStrings rs ++ q.pendingStrings).Nodup := by
  have hd1 := newURLQueue.dedup_append_left cs1 cs2 hd
  obtain ⟨q, rs, hrun⟩ := newURLQueue.dedup_run cs1 hd1
  have hnd := (newURLQueue.dedup_nodup cs1 hd1).1
  have hperm := (newURLQueue.run_conservation q cs1 rs hrun).map URL.String
  have hall : (returnedStrings rs ++ q.pendingStrings).Nodup := by
    have h2 : (returnedStrings rs ++ q.pendingStrings).Perm (appendedStrings cs1) := by
      simpa [returnedStrings, urlQueue.pendingStrings, appendedStrings, urlQueue.pending,
        newURLQueue] using hperm
    exact h2.nodup_iff.2 hnd
  have hinv : q.pendingSeen :=
    newURLQueue.run_pendingSeen q cs1 rs hrun (fun p hp => by simp [newURLQueue] at hp)
  refine ⟨q, rs, hrun, hnd, ?_, (List.nodup_append.1 hall).2.1,
    (List.nodup_append.1 hall).1, hall⟩
  intro p hp hnone
  have h := hinv p hp
  rw [hnone] at h
  simp [urlQueue.Seen] at h

theorem never_reenqueued_witness :
    newURLQueue.dedup ([Call.Append (some urlA), Call.Next, Call.Seen (some urlA),
        Call.Append (some urlB)] ++ [Call.Next, Call.Append (some urlC)]) = true ∧
      ∃ q rs, newURLQueue.run [Call.Append (some urlA), Call.Next, Call.Seen (some urlA),
          Call.Append (some urlB)] = some (q, rs) ∧
        (appendedStrings [Call.Append (some urlA), Call.Next, Call.Seen (some urlA),
          Call.Append (some urlB)]).Nodup ∧
        (∀ p ∈ q.urls, p ≠ none) ∧
        q.pendingStrings.Nodup ∧
        (returnedStrings rs).Nodup ∧
        (returnedStrings rs ++ q.pendingStrings).Nodup :=
  ⟨by decide,
    never_reenqueued [Call.Append (some urlA), Call.Next, Call.Seen (some urlA),
      Call.Append (some urlB)] [Call.Next, Call.Append (some urlC)] (by decide)⟩

/-! ## Histories without their `Seen` calls, and counts -/

/-- Taking the `Seen` calls out of a history changes neither the final queue
nor the values returned by the other calls. -/
theorem urlQueue.run_filter_seen (q q2 : urlQueue) (cs : List Call) (rs : List Ret)
    (h : q.run cs = some (q2, rs)) :
    q.run (cs.filter (fun c => !c.isSeen)) = some (q2, rs.filter (fun r => !r.isSeen)) := by
  induction cs generalizing q rs with
  | nil =>
    simp only [urlQueue.run, Option.some.injEq, Prod.mk.injEq] at h
    obtain ⟨rfl, rfl⟩ := h
    rfl
  | cons c cs ih =>
    obtain ⟨q1, r, rs1, hc, h1, rfl⟩ := q.run_cons_some q2 c cs rs h
    have h2 := ih q1 rs1 h1
    cases c with
    | Append item =>
      cases item with
      | none => simp [urlQueue.call, urlQueue.Append] at hc
      | some u =>
        simp only [urlQueue.call, urlQueue.Append, Option.map, Option.some.injEq,
          Prod.mk.injEq] at hc
        obtain ⟨rfl, rfl⟩ := hc
        have hf : (Call.Append (some u) :: cs).filter (fun c => !c.isSeen) =
            Call.Append (some u) :: cs.filter (fun c => !c.isSeen) := rfl
        have hr : (Ret.done :: rs1).filter (fun r => !r.isSeen) =
            Ret.done :: rs1.filter (fun r => !r.isSeen) := rfl
        rw [hf, hr]
        simp only [urlQueue.run, urlQueue.call, urlQueue.Append, Option.map, h2]
    | Next =>
      simp only [urlQueue.call, Option.some.injEq, Prod.mk.injEq] at hc
      obtain ⟨rfl, rfl⟩ := hc
      have hf : (Call.Next :: cs).filter (fun c => !c.isSeen) =
          Call.Next :: cs.filter (fun c => !c.isSeen) := rfl
      have hr : (Ret.next q.Next.1 :: rs1).filter (fun r => !r.isSeen) =
          Ret.next q.Next.1 :: rs1.filter (fun r => !r.isSeen) := rfl
      rw [hf, hr]
      simp only [urlQueue.run, urlQueue.call, h2]
    | Seen item =>
      cases item with
      | none => simp [urlQueue.call, urlQueue.Seen] at hc
      | some u =>
        simp only [urlQueue.call, urlQueue.Seen, Option.map, Option.some.injEq,
          Prod.mk.injEq] at hc
        obtain ⟨rfl, rfl⟩ := hc
        exact h2

/-- The beginning of a history that runs without a panic runs without a panic. -/
theorem urlQueue.run_append_left (q q2 : urlQueue) (cs1 cs2 : List Call) (rs : List Ret)
    (h : q.run (cs1 ++ cs2) = some (q2, rs)) : ∃ q1 rs1, q.run cs1 = some (q1, rs1) := by
  rw [urlQueue.run_append] at h
  cases h1 : q.run cs1 with
  | none => simp [h1] at h
  | some x => exact ⟨x.1, x.2, rfl⟩

theorem returnedURLs_length (rs : List Ret) :
    (returnedURLs rs).length = rs.countP Ret.isURL := by
  unfold returnedURLs
  rw [List.length_filterMap_eq_countP]
  congr 1
  funext r
  cases r with
  | done => rfl
  | next item => cases item <;> rfl
  | seen b => rfl

/-- In a history that runs without a panic every `Append` passes a non-nil
URL, so the URLs appended are as many as the calls of `Append`. -/
theorem urlQueue.appendedURLs_length (q q2 : urlQueue) (cs : List Call) (rs : List Ret)
    (h : q.run cs = some (q2, rs)) :
    (appendedURLs cs).length = cs.countP Call.isAppend := by
  induction cs generalizing q rs with
  | nil => rfl
  | cons c cs ih =>
    obtain ⟨q1, r, rs1, hc, h1, _⟩ := q.run_cons_some q2 c cs rs h
    have h2 := ih q1 rs1 h1
    rw [appendedURLs_cons c cs, List.length_append, h2, List.countP_cons, Nat.add_comm]
    congr 1
    cases c with
    | Append item =>
      cases item with
      | none => simp [urlQueue.call, urlQueue.Append] at hc
      | some u => rfl
    | Next => rfl
    | Seen item => rfl

theorem reduceOption_map_some (l : List (Option URL)) (h : ∀ p ∈ l, p ≠ none) :
    l.reduceOption.map some = l := by
  induction l with
  | nil => rfl
  | cons p l ih =>
    have hl := ih (fun x hx => h x (List.mem_cons_of_mem _ hx))
    cases p with
    | none => exact absurd rfl (h none (List.mem_cons_self _ _))
    | some u =>
      rw [List.reduceOption_cons_of_some, List.map_cons, hl]

theorem urlQueue.pendingSeen_ne_none (q : urlQueue) (hq : q.pendingSeen) :
    ∀ p ∈ q.urls, p ≠ none := by
  intro p hp hnone
  have h := hq p hp
  rw [hnone] at h
  simp [urlQueue.Seen] at h

/-- In a state whose pending URLs are all seen, `Next` returns nil only on an
empty pending sequence. -/
theorem urlQueue.Next_none_iff (q : urlQueue) (hq : q.pendingSeen) :
    q.Next.1 = none ↔ q.urls = [] := by
  constructor
  · intro h
    rcases q.Next_cases with ⟨hu, _⟩ | ⟨xs, p, hu, hn⟩
    · exact hu
    · rw [hn] at h
      simp only at h
      have hp : p ∈ q.urls := by
        rw [hu]
        simp
      exact absurd h (q.pendingSeen_ne_none hq p hp)
  · intro h
    rw [q.Next_nil h]

theorem newURLQueue_pendingSeen : newURLQueue.pendingSeen :=
  fun p hp => by simp [newURLQueue] at hp

/-! ## Properties of the frontier, continued -/

/-- C11 (a queue is created empty): in the state returned by `newURLQueue()`
the pending sequence is empty, `Seen(u)` is false for every URL `u`, and
`Next` returns nil, the state staying as it is. -/
theorem new_queue_empty (u : URL) :
    newURLQueue.urls = [] ∧ newURLQueue.Seen (some u) = some false ∧
      newURLQueue.Next = (none, newURLQueue) :=
  ⟨rfl, rfl, newURLQueue.Next_nil rfl⟩

/-- C16 (`Seen` is a pure query): `Seen(u)` returns its answer and leaves the
queue, pending sequence and seen map, as it was; two calls in a row return the
same value; taking the `Seen` calls out of any history changes neither the
final queue nor what the other calls return; and the dedup check on the queue
is the negation of that answer, a value computed from the state. -/
theorem seen_pure (q : urlQueue) (u : URL) :
    q.call (Call.Seen (some u)) = some (q, Ret.seen (q.seen.has u.String)) ∧
      q.run [Call.Seen (some u), Call.Seen (some u)] =
        some (q, [Ret.seen (q.seen.has u.String), Ret.seen (q.seen.has u.String)]) ∧
      (∀ cs q2 rs, q.run cs = some (q2, rs) →
        q.run (cs.filter (fun c => !c.isSeen)) =
          some (q2, rs.filter (fun r => !r.isSeen))) ∧
      createNotSeenPredicate q.toSeener (some u) = some (!q.seen.has u.String) :=
  ⟨rfl, rfl, fun cs q2 rs h => q.run_filter_seen q2 cs rs h, rfl⟩

theorem seen_pure_witness :
    newURLQueue.run [Call.Seen (some urlA), Call.Append (some urlA), Call.Seen (some urlA),
        Call.Next, Call.Seen (some urlB)] =
      some (⟨[], ⟨[("http://example.com/a", true)]⟩⟩,
        [Ret.seen false, Ret.done, Ret.seen true, Ret.next (some urlA), Ret.seen false]) ∧
      newURLQueue.run ([Call.Seen (some urlA), Call.Append (some urlA), Call.Seen (some urlA),
        Call.Next, Call.Seen (some urlB)].filter (fun c => !c.isSeen)) =
      some (⟨[], ⟨[("http://example.com/a", true)]⟩⟩,
        [Ret.seen false, Ret.done, Ret.seen true, Ret.next (some urlA),
          Ret.seen false].filter (fun r => !r.isSeen)) :=
  ⟨by decide, (seen_pure newURLQueue urlA).2.2.1 _ _ _ (by decide)⟩

/-- C17 (conservation of work): after a history from `newURLQueue()` that runs
without a panic (every URL appended is non-nil), the URLs passed to `Append`
are a permutation of the URLs returned by `Next` followed by the pending
sequence, which holds no nil; the pending length plus the number of calls of
`Next` that returned a URL is the number of calls of `Append`; and `Next`
returns nil only on an empty pending sequence, at the end of the history and
at every call of `Next` inside it. -/
theorem conservation_of_work (cs : List Call) (q : urlQueue) (rs : List Ret)
    (hrun : newURLQueue.run cs = some (q, rs)) :
    (appendedURLs cs).Perm (returnedURLs rs ++ q.pending) ∧
      q.urls = q.pending.map some ∧
      q.urls.length + rs.countP Ret.isURL = cs.countP Call.isAppend ∧
      (q.Next.1 = none ↔ q.urls = []) ∧
      (∀ cs1 cs2, cs = cs1 ++ Call.Next :: cs2 →
        ∃ q1 rs1, newURLQueue.run cs1 = some (q1, rs1) ∧
          (q1.Next.1 = none ↔ q1.urls = [])) := by
  have hinv : q.pendingSeen := newURLQueue.run_pendingSeen q cs rs hrun newURLQueue_pendingSeen
  have hperm : (returnedURLs rs ++ q.pending).Perm (appendedURLs cs) := by
    have h := newURLQueue.run_conservation q cs rs hrun
    simpa [urlQueue.pending, newURLQueue] using h
  have hurls : q.urls = q.pending.map some :=
    (reduceOption_map_some q.urls (q.pendingSeen_ne_none hinv)).symm
  refine ⟨hperm.symm, hurls, ?_, q.Next_none_iff hinv, ?_⟩
  · have hlen := hperm.length_eq
    rw [List.length_append, returnedURLs_length,
      newURLQueue.appendedURLs_length q cs rs hrun] at hlen
    have hl : q.urls.length = q.pending.length := by
      rw [hurls, List.length_map]
    omega
  · intro cs1 cs2 hcs
    rw [hcs] at hrun
    obtain ⟨q1, rs1, h1⟩ := newURLQueue.run_append_left q cs1 (Call.Next :: cs2) rs hrun
    exact ⟨q1, rs1, h1, q1.Next_none_iff
      (newURLQueue.run_pendingSeen q1 cs1 rs1 h1 newURLQueue_pendingSeen)⟩

theorem conservation_of_work_witness :
    newURLQueue.run [Call.Append (some urlA), Call.Append (some urlB), Call.Next, Call.Next,
        Call.Next, Call.Append (some urlC)] =
      some (⟨[some urlC], ⟨[("http://example.com/c", true), ("http://example.com/b", true),
          ("http://example.com/a", true)]⟩⟩,
        [Ret.done, Ret.done, Ret.next (some urlB), Ret.next (some urlA), Ret.next none,
          Ret.done]) ∧
      [urlA, urlB, urlC].Perm ([urlB, urlA] ++ [urlC]) :=
  ⟨by decide,
    (conservation_of_work [Call.Append (some urlA), Call.Append (some urlB), Call.Next,
        Call.Next, Call.Next, Call.Append (some urlC)]
      ⟨[some urlC], ⟨[("http://example.com/c", true), ("http://example.com/b", true),
          ("http://example.com/a", true)]⟩⟩
      [Ret.done, Ret.done, Ret.next (some urlB), Ret.next (some urlA), Ret.next none,
        Ret.done] (by decide)).1⟩

/-! ## Properties of the eligibility predicates -/

/-- A host matches a root at a label boundary exactly when it is some string
followed by a dot and the root. -/
theorem hostIsSubdomain_iff (host root : String) :
    hostIsSubdomain host root = true ↔ ∃ pre : String, host = pre ++ "." ++ root := by
  unfold hostIsSubdomain
  rw [List.isSuffixOf_iff_suffix]
  constructor
  · rintro ⟨t, ht⟩
    refine ⟨String.mk t, ?_⟩
    rw [String.ext_iff, ← ht]
    simp only [String.data_append, List.append_assoc]
  · rintro ⟨pre, hpre⟩
    refine ⟨pre.data, ?_⟩
    rw [hpre]
    simp only [String.data_append, List.append_assoc]

theorem host_ne_of_subdomain (pre root : String) : pre ++ "." ++ root ≠ root := by
  intro h
  have hlen := congrArg String.length h
  simp only [String.length_append] at hlen
  have h1 : ".".length = 1 := rfl
  omega

/-- C12 (dedup predicate): the predicate built from a `Seener` answers true
exactly when `Seen` answers false, and false exactly when `Seen` answers true.
With a queue as the `Seener`, it accepts every URL on a new queue and rejects
`u` in every state that follows an `Append(u)`. -/
theorem not_seen_predicate (s : Seener) (item : Option URL) (q : urlQueue) (u : URL) :
    (createNotSeenPredicate s item = some true ↔ s.Seen item = some false) ∧
      (createNotSeenPredicate s item = some false ↔ s.Seen item = some true) ∧
      createNotSeenPredicate newURLQueue.toSeener (some u) = some true ∧
      (∀ q1 cs q2 rs, q.Append (some u) = some q1 → q1.run cs = some (q2, rs) →
        createNotSeenPredicate q2.toSeener (some u) = some false) := by
  refine ⟨?_, ?_, rfl, ?_⟩
  · unfold createNotSeenPredicate
    cases s.Seen item with
    | none => simp
    | some b => cases b <;> simp
  · unfold createNotSeenPredicate
    cases s.Seen item with
    | none => simp
    | some b => cases b <;> simp
  · intro q1 cs q2 rs hq1 hrun
    simp only [urlQueue.Append, Option.some.injEq] at hq1
    have h1 : q1.seen.has u.String = true := by
      rw [← hq1]
      exact (StrMap.has_assign _ _ _ _).2 (Or.inr rfl)
    have h2 : q2.seen.has u.String = true :=
      (q1.run_seen_iff q2 cs rs hrun u.String).2 (Or.inl h1)
    simp only [createNotSeenPredicate, urlQueue.toSeener, urlQueue.Seen, Option.map, h2,
      Bool.not_true]

theorem not_seen_predicate_witness :
    createNotSeenPredicate (urlPredicate.toSeener fooSeener) (some (pathRef "notseen.com")) =
        some true ∧
      createNotSeenPredicate (urlPredicate.toSeener fooSeener) (some (pathRef "seen.com/foo")) =
        some false ∧
      createNotSeenPredicate
        (urlQueue.mk [] ⟨[("http://example.com/b", true),
          ("http://example.com/a", true)]⟩).toSeener (some urlA) = some false :=
  ⟨(not_seen_predicate (urlPredicate.toSeener fooSeener) (some (pathRef "notseen.com"))
      newURLQueue urlA).1.2 (by decide),
    (not_seen_predicate (urlPredicate.toSeener fooSeener) (some (pathRef "seen.com/foo"))
      newURLQueue urlA).2.1.2 (by decide),
    (not_seen_predicate (urlPredicate.toSeener fooSeener) none newURLQueue urlA).2.2.2
      ⟨[some urlA], ⟨[("http://example.com/a", true)]⟩⟩
      [Call.Next, Call.Append (some urlB), Call.Next]
      ⟨[], ⟨[("http://example.com/b", true), ("http://example.com/a", true)]⟩⟩
      [Ret.next (some urlA), Ret.done, Ret.next (some urlB)] (by decide) (by decide)⟩

/-- C13 (scope predicate without subdomains): for a root and a resolved
candidate the predicate is true exactly when the two hosts are equal, and
false otherwise; a relative reference resolved against the root is accepted;
a host that is a subdomain of the host of the root is rejected; and two
candidates with the same host, whatever their scheme, path and query, get the
same answer. -/
theorem internal_no_subdomains (root c : URL) :
    (createIsInternalPredicate (some root) false (some c) = some true ↔
        c.Host = root.Host) ∧
      (c.Host ≠ root.Host →
        createIsInternalPredicate (some root) false (some c) = some false) ∧
      (∀ ref : URL, ref.Scheme = "" → ref.Host = "" →
        createIsInternalPredicate (some root) false (some (root.ResolveReference ref)) =
          some true) ∧
      (∀ pre : String, c.Host = pre ++ "." ++ root.Host →
        createIsInternalPredicate (some root) false (some c) = some false) ∧
      (∀ c2 : URL, c2.Host = c.Host →
        createIsInternalPredicate (some root) false (some c2) =
          createIsInternalPredicate (some root) false (some c)) := by
  have hne : c.Host ≠ root.Host →
      createIsInternalPredicate (some root) false (some c) = some false := by
    intro h
    simp [createIsInternalPredicate, h]
  refine ⟨?_, hne, ?_, ?_, ?_⟩
  · simp [createIsInternalPredicate]
  · intro ref h1 h2
    simp [createIsInternalPredicate, URL.ResolveReference, h1, h2]
  · intro pre hpre
    apply hne
    rw [hpre]
    exact host_ne_of_subdomain pre root.Host
  · intro c2 h2
    simp [createIsInternalPredicate, h2]

theorem internal_no_subdomains_witness :
    createIsInternalPredicate (some testRoot) false
        (some (testRoot.ResolveReference (pathRef "/foo"))) = some true ∧
      createIsInternalPredicate (some testRoot) false
        (some (testRoot.ResolveReference (pathRef "foo"))) = some true ∧
      createIsInternalPredicate (some testRoot) false
        (some (testRoot.ResolveReference (httpURL "willdemaine.co.uk" ""))) = some true ∧
      createIsInternalPredicate (some testRoot) false
        (some (testRoot.ResolveReference (httpURL "willdemaine.co.uk" "/foo"))) = some true ∧
      createIsInternalPredicate (some testRoot) false
        (some (testRoot.ResolveReference (httpURL "foo.willdemaine.co.uk" ""))) = some false ∧
      createIsInternalPredicate (some testRoot) false
        (some (testRoot.ResolveReference (httpURL "foo.bar.co.uk" ""))) = some false :=
  ⟨(internal_no_subdomains testRoot testRoot).2.2.1 (pathRef "/foo") rfl rfl,
    (internal_no_subdomains testRoot testRoot).2.2.1 (pathRef "foo") rfl rfl,
    (internal_no_subdomains testRoot
      (testRoot.ResolveReference (httpURL "willdemaine.co.uk" ""))).1.2 (by decide),
    (internal_no_subdomains testRoot
      (testRoot.ResolveReference (httpURL "willdemaine.co.uk" "/foo"))).1.2 (by decide),
    (internal_no_subdomains testRoot
      (testRoot.ResolveReference (httpURL "foo.willdemaine.co.uk" ""))).2.2.2.1 "foo"
      (by decide),
    (internal_no_subdomains testRoot
      (testRoot.ResolveReference (httpURL "foo.bar.co.uk" ""))).2.1 (by decide)⟩

/-- C14 (scope predicate with subdomains): for a root and a resolved candidate
the predicate is true exactly when the host of the candidate is the host of
the root or ends with a dot followed by the host of the root, and false
otherwise. -/
theorem internal_with_subdomains (root c : URL) :
    (createIsInternalPredicate (some root) true (some c) = some true ↔
        (c.Host = root.Host ∨ ∃ pre : String, c.Host = pre ++ "." ++ root.Host)) ∧
      (createIsInternalPredicate (some root) true (some c) = some false ↔
        ¬ (c.Host = root.Host ∨ ∃ pre : String, c.Host = pre ++ "." ++ root.Host)) := by
  have h1 : createIsInternalPredicate (some root) true (some c) =
      some (c.Host == root.Host || hostIsSubdomain c.Host root.Host) := rfl
  rw [h1, ← hostIsSubdomain_iff]
  constructor
  · simp
  · simp

theorem internal_with_subdomains_witness :
    createIsInternalPredicate (some (httpURL "example.com" "")) true
        (some (httpURL "foo.example.com" "")) = some true ∧
      (createIsInternalPredicate (some (httpURL "example.com" "")) true
          (some (httpURL "fooexample.com" "")) = some false ∧
        ¬ ∃ pre : String, "fooexample.com" = pre ++ "." ++ "example.com") ∧
      createIsInternalPredicate (some (httpURL "example.com" "")) true
        (some (httpURL "other.com" "")) = some false ∧
      createIsInternalPredicate (some testRoot) true
        (some (testRoot.ResolveReference (pathRef "foo"))) = some true ∧
      createIsInternalPredicate (some testRoot) true
        (some (testRoot.ResolveReference (httpURL "foo.willdemaine.co.uk" ""))) = some true ∧
      createIsInternalPredicate (some testRoot) true
        (some (testRoot.ResolveReference (httpURL "foo.bar.co.uk" ""))) = some false :=
  ⟨(internal_with_subdomains (httpURL "example.com" "") (httpURL "foo.example.com" "")).1.2
      (Or.inr ⟨"foo", by decide⟩),
    ⟨by decide,
      fun h => (internal_with_subdomains (httpURL "example.com" "")
        (httpURL "fooexample.com" "")).2.1 (by decide) (Or.inr h)⟩,
    by decide,
    (internal_with_subdomains testRoot (testRoot.ResolveReference (pathRef "foo"))).1.2
      (Or.inl (by decide)),
    (internal_with_subdomains testRoot
      (testRoot.ResolveReference (httpURL "foo.willdemaine.co.uk" ""))).1.2
      (Or.inr ⟨"foo", by decide⟩),
    by decide⟩

/-- C15 (robots predicate): with an absent (nil) rule set the predicate is true
for every agent and every URL; with a rule set `r` it is the answer of the
rule evaluator `r.TestAgent` for the agent and the path of the URL, nothing
else being looked at. -/
theorem robots_predicate (a : String) (u : URL) (r : RobotsData) :
    createShouldRequestByRobotsPredicate a none (some u) = some true ∧
      createShouldRequestByRobotsPredicate a (some r) (some u) =
        some (r.TestAgent a u.Path) ∧
      (∀ u2 : URL, u2.Path = u.Path →
        createShouldRequestByRobotsPredicate a (some r) (some u2) =
          createShouldRequestByRobotsPredicate a (some r) (some u)) := by
  refine ⟨rfl, rfl, ?_⟩
  intro u2 h
  simp only [createShouldRequestByRobotsPredicate, h]

theorem robots_predicate_witness :
    createShouldRequestByRobotsPredicate "foo" none (some (pathRef "/foo")) = some true ∧
      createShouldRequestByRobotsPredicate "agent" (some testRobots)
        (some ((httpURL "foo.com" "").ResolveReference (pathRef "/foo/123"))) = some true ∧
      createShouldRequestByRobotsPredicate "agent" (some testRobots)
        (some ((httpURL "foo.com" "").ResolveReference (pathRef "/bar/123"))) = some false ∧
      createShouldRequestByRobotsPredicate "foo" (some testRobots)
        (some ((httpURL "foo.com" "").ResolveReference (pathRef "/foo/123"))) = some true ∧
      createShouldRequestByRobotsPredicate "foo" (some testRobots)
        (some ((httpURL "foo.com" "").ResolveReference (pathRef "/bar/123"))) = some true :=
  ⟨(robots_predicate "foo" (pathRef "/foo") testRobots).1,
    by decide, by decide, by decide, by decide⟩

end Spider
